import Mathlib

/-!
Verification of the image-resizer plugin core (files `src/resizer.ts`,
`src/main.ts`, `src/settings.ts`) against its natural-language specification.

The TypeScript code is shallowly embedded:
* JavaScript `number` arithmetic in the dimension planner is modelled with
  exact rationals (`ℚ`); `Math.round` is round-half-up, `⌊x + 1/2⌋`.
* `String.prototype.split(".")`, the regex replace `/\.[^.]+$/` and the
  first-occurrence `String.prototype.replace(string, string)` are modelled
  as executable functions over `List Char`.
* The plugin's mutable fields (`processing` set, `pending` timer map, the
  `ready` flag) become a `PluginState` record; `setTimeout`/`clearTimeout`
  become explicit timer creation / cancellation / firing bookkeeping.
* Vault storage becomes an association list from path to an opaque content
  id; decode/encode (DOM image + canvas) are oracles: the engine's outcome
  for a file is passed in as data, while all control flow around it is
  translated from the source.
-/

/-- JavaScript `Math.round`: rounds to the nearest integer, with halves
rounding toward positive infinity — exactly `⌊x + 1/2⌋`. -/
def jsRound (x : ℚ) : ℤ := ⌊x + 1/2⌋

/-- `src/resizer.ts` lines 69-77: the mutable `scale` accumulator of
`calculateDimensions` — starts at 1 and is clamped by each active,
exceeded axis limit. -/
def computedScale (origWidth origHeight maxWidth maxHeight : ℚ) : ℚ :=
  let s1 : ℚ := 1
  let s2 : ℚ := if 0 < maxWidth ∧ maxWidth < origWidth then min s1 (maxWidth / origWidth) else s1
  if 0 < maxHeight ∧ maxHeight < origHeight then min s2 (maxHeight / origHeight) else s2

/-- `src/resizer.ts` `calculateDimensions` (lines 63-88): `none` when no
resize is needed (`scale >= 1`), otherwise the rounded scaled target. -/
def calculateDimensions (origWidth origHeight maxWidth maxHeight : ℚ) : Option (ℤ × ℤ) :=
  let scale := computedScale origWidth origHeight maxWidth maxHeight
  if 1 ≤ scale then none
  else some (jsRound (origWidth * scale), jsRound (origHeight * scale))

/-- JavaScript `String.prototype.split(".")` on a character list: splits on
every `'.'`, keeping empty segments, never returning an empty list. -/
def splitDot : List Char → List (List Char)
  | [] => [[]]
  | c :: rest =>
    if c = '.' then [] :: splitDot rest
    else
      match splitDot rest with
      | [] => [[c]]
      | s :: ss => (c :: s) :: ss

/-- `src/resizer.ts` `getExtension` (lines 10-12):
`filename.split(".").pop()?.toLowerCase() ?? ""`. -/
def getExtension (filename : String) : String :=
  String.mk (((splitDot filename.data).getLastD []).map Char.toLower)

/-- `src/resizer.ts` line 3: the supported image extension set. -/
def IMAGE_EXTENSIONS : List String := ["png", "jpg", "jpeg", "webp", "bmp"]

/-- `src/resizer.ts` `isImageFile` (lines 5-8). -/
def isImageFile (filename : String) : Bool :=
  IMAGE_EXTENSIONS.contains (getExtension filename)

/-- `src/resizer.ts` `getMimeType` (lines 43-57). -/
def getMimeType (ext : String) : String :=
  if ext = "png" then "image/png"
  else if ext = "jpg" ∨ ext = "jpeg" then "image/jpeg"
  else if ext = "webp" then "image/webp"
  else if ext = "bmp" then "image/bmp"
  else "image/png"

/-- `src/settings.ts` `ImageResizerSettings` (lines 4-13). -/
structure ImageResizerSettings where
  maxWidth : ℕ
  maxHeight : ℕ
  jpegQuality : ℕ
  convertToJpeg : Bool
  resizeOnPaste : Bool
  resizeOnDrop : Bool
  showNotice : Bool
  skipExtensions : List String

/-- `src/settings.ts` `DEFAULT_SETTINGS` (lines 15-24). -/
def DEFAULT_SETTINGS : ImageResizerSettings :=
  { maxWidth := 1920, maxHeight := 1080, jpegQuality := 85,
    convertToJpeg := false, resizeOnPaste := true, resizeOnDrop := true,
    showNotice := true, skipExtensions := [] }

/-- The decoded pixel dimensions of an image (`img.naturalWidth` /
`img.naturalHeight` after `loadImage` in `src/resizer.ts`). -/
structure DecodedImage where
  naturalWidth : ℕ
  naturalHeight : ℕ

/-- `src/resizer.ts` `ResizeResult` (lines 14-21); the encoded bytes are an
opaque content id. -/
structure ResizeResult where
  data : ℕ
  width : ℤ
  height : ℤ
  originalWidth : ℕ
  originalHeight : ℕ
  newExtension : Option String

/-- `src/resizer.ts` `resizeImage` (lines 94-163), with decoding and canvas
encoding abstracted: the decoded dimensions come in as `img`, and the bytes
the canvas would export as the opaque `encoded`. Control flow (the
no-resize early return and the PNG→JPEG extension switch) is translated
from the source. -/
def resizeImage (img : DecodedImage) (filename : String)
    (settings : ImageResizerSettings) (encoded : ℕ) : Option ResizeResult :=
  let ext := getExtension filename
  match calculateDimensions img.naturalWidth img.naturalHeight
      settings.maxWidth settings.maxHeight with
  | none => none
  | some (w, h) =>
    some { data := encoded, width := w, height := h,
           originalWidth := img.naturalWidth,
           originalHeight := img.naturalHeight,
           newExtension :=
             if settings.convertToJpeg && (ext == "png") then some "jpg" else none }

section PlannerLemmas

theorem jsRound_le (x : ℚ) : (jsRound x : ℚ) ≤ x + 1/2 := Int.floor_le _

theorem lt_jsRound (x : ℚ) : x - 1/2 < (jsRound x : ℚ) := by
  have h := Int.lt_floor_add_one (x + 1/2)
  unfold jsRound
  linarith

theorem computedScale_def (w h mW mH : ℚ) :
    computedScale w h mW mH =
      if 0 < mH ∧ mH < h then
        min (if 0 < mW ∧ mW < w then min 1 (mW / w) else 1) (mH / h)
      else (if 0 < mW ∧ mW < w then min 1 (mW / w) else 1) := rfl

theorem computedScale_le_one (w h mW mH : ℚ) : computedScale w h mW mH ≤ 1 := by
  rw [computedScale_def]
  split_ifs <;> simp [min_le_iff]

theorem computedScale_pos (w h mW mH : ℚ) : 0 < computedScale w h mW mH := by
  rw [computedScale_def]
  split_ifs with h2 h1 h1
  · have hw : 0 < w := lt_trans h1.1 h1.2
    have hh : 0 < h := lt_trans h2.1 h2.2
    exact lt_min (lt_min one_pos (div_pos h1.1 hw)) (div_pos h2.1 hh)
  · have hh : 0 < h := lt_trans h2.1 h2.2
    exact lt_min one_pos (div_pos h2.1 hh)
  · have hw : 0 < w := lt_trans h1.1 h1.2
    exact lt_min one_pos (div_pos h1.1 hw)
  · exact one_pos

theorem computedScale_le_width (w h mW mH : ℚ) (h1 : 0 < mW) (h2 : mW < w) :
    computedScale w h mW mH ≤ mW / w := by
  rw [computedScale_def]
  split_ifs with h3 h4 h4
  · exact le_trans (min_le_left _ _) (min_le_right _ _)
  · exact absurd ⟨h1, h2⟩ h4
  · exact min_le_right _ _
  · exact absurd ⟨h1, h2⟩ h4

theorem computedScale_le_height (w h mW mH : ℚ) (h1 : 0 < mH) (h2 : mH < h) :
    computedScale w h mW mH ≤ mH / h := by
  rw [computedScale_def, if_pos ⟨h1, h2⟩]
  exact min_le_right _ _

theorem computedScale_eq_one (w h mW mH : ℚ)
    (h1 : ¬(0 < mW ∧ mW < w)) (h2 : ¬(0 < mH ∧ mH < h)) :
    computedScale w h mW mH = 1 := by
  rw [computedScale_def, if_neg h2, if_neg h1]

theorem calculateDimensions_eq (w h mW mH : ℚ) :
    calculateDimensions w h mW mH =
      if 1 ≤ computedScale w h mW mH then none
      else some (jsRound (w * computedScale w h mW mH),
                 jsRound (h * computedScale w h mW mH)) := rfl

theorem calculateDimensions_some_iff (w h mW mH : ℚ) (tW tH : ℤ) :
    calculateDimensions w h mW mH = some (tW, tH) ↔
      computedScale w h mW mH < 1 ∧
      tW = jsRound (w * computedScale w h mW mH) ∧
      tH = jsRound (h * computedScale w h mW mH) := by
  rw [calculateDimensions_eq]
  split_ifs with hs
  · constructor
    · intro hc; exact absurd hc (by simp)
    · rintro ⟨h1, -⟩; exact absurd hs (not_le.2 h1)
  · constructor
    · intro hc
      obtain ⟨h1, h2⟩ := Prod.mk.injEq .. ▸ Option.some.injEq .. ▸ hc
      exact ⟨not_le.1 hs, h1.symm, h2.symm⟩
    · rintro ⟨-, h1, h2⟩
      rw [h1, h2]

end PlannerLemmas

theorem computedScale_min_char (w h mW mH : ℚ) :
    computedScale w h mW mH =
      min (if 0 < mW ∧ mW < w then mW / w else 1)
          (if 0 < mH ∧ mH < h then mH / h else 1) := by
  rw [computedScale_def]
  split_ifs with h2 h1 h1
  · have hw : 0 < w := lt_trans h1.1 h1.2
    rw [min_eq_right (le_of_lt ((div_lt_one hw).2 h1.2))]
  · rfl
  · have hw : 0 < w := lt_trans h1.1 h1.2
    have hle := le_of_lt ((div_lt_one hw).2 h1.2)
    rw [min_eq_right hle, min_eq_left hle]
  · rw [min_self]

/-- Claim C1 counterexample: the planner has no `≥ 1` floor on the target
axes.  For a 4000×1 image with `maxWidth = 1920` (the claim's own example,
which it says "must still plan a height ≥ 1") the code plans height
`Math.round(1 * 0.48) = 0`. -/
theorem plan_zero_axis_cex :
    calculateDimensions 4000 1 1920 0 = some (1920, 0) ∧
    ¬(∀ tW tH : ℤ, calculateDimensions 4000 1 1920 0 = some (tW, tH) → 1 ≤ tH) := by
  have h : calculateDimensions 4000 1 1920 0 = some (1920, 0) := by
    rw [calculateDimensions_eq]
    have hs : computedScale 4000 1 1920 0 = 12/25 := by
      rw [computedScale_def]; norm_num
    rw [hs]
    norm_num [jsRound, Int.floor_eq_iff]
  refine ⟨h, fun hall => ?_⟩
  have := hall 1920 0 h
  omega

/-- Claim C1 (amended): when the planner yields a target, each axis is
exactly `round(original * scale)` with NO `≥ 1` floor applied; each axis is
nonnegative, and an axis is `≥ 1` precisely when `original * scale ≥ 1/2`
— so a plan can have a zero axis (e.g. a 4000×1 image with
`maxWidth = 1920` plans height 0). -/
theorem plan_axes_round_no_floor (w h mW mH : ℕ) (tW tH : ℤ)
    (hp : calculateDimensions (w : ℚ) (h : ℚ) (mW : ℚ) (mH : ℚ) = some (tW, tH)) :
    tW = jsRound ((w : ℚ) * computedScale (w : ℚ) (h : ℚ) (mW : ℚ) (mH : ℚ)) ∧
    tH = jsRound ((h : ℚ) * computedScale (w : ℚ) (h : ℚ) (mW : ℚ) (mH : ℚ)) ∧
    0 ≤ tW ∧ 0 ≤ tH ∧
    (1 ≤ tW ↔ 1/2 ≤ (w : ℚ) * computedScale (w : ℚ) (h : ℚ) (mW : ℚ) (mH : ℚ)) ∧
    (1 ≤ tH ↔ 1/2 ≤ (h : ℚ) * computedScale (w : ℚ) (h : ℚ) (mW : ℚ) (mH : ℚ)) := by
  obtain ⟨hlt, htW, htH⟩ := (calculateDimensions_some_iff _ _ _ _ _ _).1 hp
  have hs0 : 0 < computedScale (w : ℚ) (h : ℚ) (mW : ℚ) (mH : ℚ) := computedScale_pos _ _ _ _
  have hw0 : (0 : ℚ) ≤ (w : ℚ) * computedScale (w : ℚ) (h : ℚ) (mW : ℚ) (mH : ℚ) :=
    mul_nonneg (Nat.cast_nonneg w) hs0.le
  have hh0 : (0 : ℚ) ≤ (h : ℚ) * computedScale (w : ℚ) (h : ℚ) (mW : ℚ) (mH : ℚ) :=
    mul_nonneg (Nat.cast_nonneg h) hs0.le
  refine ⟨htW, htH, ?_, ?_, ?_, ?_⟩
  · rw [htW]; exact Int.le_floor.2 (by push_cast; linarith)
  · rw [htH]; exact Int.le_floor.2 (by push_cast; linarith)
  · rw [htW]; simp only [jsRound, Int.le_floor]
    push_cast
    constructor <;> intro h1 <;> linarith
  · rw [htH]; simp only [jsRound, Int.le_floor]
    push_cast
    constructor <;> intro h1 <;> linarith

/-- Witness for `plan_axes_round_no_floor` at the concrete input 4000×1
with `maxWidth = 1920`, `maxHeight = 0`: the planned height is
`round(1 * 0.48) = 0`, a zero axis. -/
theorem plan_axes_round_no_floor_witness :
    (0 : ℤ) = jsRound ((1 : ℚ) * computedScale 4000 1 1920 0) ∧ 0 ≤ (0 : ℤ) := by
  have h : calculateDimensions ((4000 : ℕ) : ℚ) ((1 : ℕ) : ℚ) ((1920 : ℕ) : ℚ) ((0 : ℕ) : ℚ)
      = some (1920, 0) := by
    push_cast
    rw [calculateDimensions_eq]
    have hs : computedScale 4000 1 1920 0 = 12/25 := by
      rw [computedScale_def]; norm_num
    rw [hs]
    norm_num [jsRound, Int.floor_eq_iff]
  have H := plan_axes_round_no_floor 4000 1 1920 0 1920 0 h
  refine ⟨?_, H.2.2.2.1⟩
  have h2 := H.2.1
  push_cast at h2 ⊢
  exact h2

/-- Claim C4: whenever the plan yields a target for positive original
dimensions, the scale is the minimum of the per-axis shrink factors and is
`< 1`; both target axes are the rounding of the SAME uniform scale applied
to the originals, never exceed the originals, and land within half a pixel
(hence at most one pixel) of the exactly-scaled value, which has exactly
the original aspect ratio. -/
theorem plan_target_bounds_uniform (w h mW mH : ℕ) (tW tH : ℤ)
    (hw : 0 < w) (hh : 0 < h)
    (hp : calculateDimensions (w : ℚ) (h : ℚ) (mW : ℚ) (mH : ℚ) = some (tW, tH)) :
    computedScale (w : ℚ) (h : ℚ) (mW : ℚ) (mH : ℚ) < 1 ∧
    computedScale (w : ℚ) (h : ℚ) (mW : ℚ) (mH : ℚ) =
      min (if 0 < (mW : ℚ) ∧ (mW : ℚ) < (w : ℚ) then (mW : ℚ) / (w : ℚ) else 1)
          (if 0 < (mH : ℚ) ∧ (mH : ℚ) < (h : ℚ) then (mH : ℚ) / (h : ℚ) else 1) ∧
    tW = jsRound ((w : ℚ) * computedScale (w : ℚ) (h : ℚ) (mW : ℚ) (mH : ℚ)) ∧
    tH = jsRound ((h : ℚ) * computedScale (w : ℚ) (h : ℚ) (mW : ℚ) (mH : ℚ)) ∧
    tW ≤ (w : ℤ) ∧ tH ≤ (h : ℤ) ∧
    |(tW : ℚ) - (w : ℚ) * computedScale (w : ℚ) (h : ℚ) (mW : ℚ) (mH : ℚ)| ≤ 1/2 ∧
    |(tH : ℚ) - (h : ℚ) * computedScale (w : ℚ) (h : ℚ) (mW : ℚ) (mH : ℚ)| ≤ 1/2 := by
  obtain ⟨hlt, htW, htH⟩ := (calculateDimensions_some_iff _ _ _ _ _ _).1 hp
  have hwq : (0 : ℚ) < (w : ℚ) := by exact_mod_cast hw
  have hhq : (0 : ℚ) < (h : ℚ) := by exact_mod_cast hh
  have hubW : (tW : ℚ) ≤ (w : ℚ) * computedScale (w : ℚ) (h : ℚ) (mW : ℚ) (mH : ℚ) + 1/2 := by
    rw [htW]; exact jsRound_le _
  have hlbW : (w : ℚ) * computedScale (w : ℚ) (h : ℚ) (mW : ℚ) (mH : ℚ) - 1/2 < (tW : ℚ) := by
    rw [htW]; exact lt_jsRound _
  have hubH : (tH : ℚ) ≤ (h : ℚ) * computedScale (w : ℚ) (h : ℚ) (mW : ℚ) (mH : ℚ) + 1/2 := by
    rw [htH]; exact jsRound_le _
  have hlbH : (h : ℚ) * computedScale (w : ℚ) (h : ℚ) (mW : ℚ) (mH : ℚ) - 1/2 < (tH : ℚ) := by
    rw [htH]; exact lt_jsRound _
  have hmulW : (w : ℚ) * computedScale (w : ℚ) (h : ℚ) (mW : ℚ) (mH : ℚ) < (w : ℚ) :=
    mul_lt_of_lt_one_right hwq hlt
  have hmulH : (h : ℚ) * computedScale (w : ℚ) (h : ℚ) (mW : ℚ) (mH : ℚ) < (h : ℚ) :=
    mul_lt_of_lt_one_right hhq hlt
  have hWle : tW ≤ (w : ℤ) := by
    have h1 : (tW : ℚ) < (w : ℚ) + 1 := by linarith
    have h2 : tW < (w : ℤ) + 1 := by exact_mod_cast h1
    omega
  have hHle : tH ≤ (h : ℤ) := by
    have h1 : (tH : ℚ) < (h : ℚ) + 1 := by linarith
    have h2 : tH < (h : ℤ) + 1 := by exact_mod_cast h1
    omega
  exact ⟨hlt, computedScale_min_char _ _ _ _, htW, htH, hWle, hHle,
    abs_le.2 ⟨by linarith, by linarith⟩, abs_le.2 ⟨by linarith, by linarith⟩⟩

/-- Witness for `plan_target_bounds_uniform`: a 3840×2160 image under
limits 1920×1080 plans 1920×1080 with uniform scale 1/2. -/
theorem plan_target_bounds_uniform_witness :
    (1920 : ℤ) ≤ ((3840 : ℕ) : ℤ) ∧ (1080 : ℤ) ≤ ((2160 : ℕ) : ℤ) := by
  have h : calculateDimensions ((3840 : ℕ) : ℚ) ((2160 : ℕ) : ℚ) ((1920 : ℕ) : ℚ) ((1080 : ℕ) : ℚ)
      = some (1920, 1080) := by
    push_cast
    rw [calculateDimensions_eq]
    have hs : computedScale (3840 : ℚ) 2160 1920 1080 = 1/2 := by
      rw [computedScale_def]; norm_num
    rw [hs]
    norm_num [jsRound, Int.floor_eq_iff]
  have H := plan_target_bounds_uniform 3840 2160 1920 1080 1920 1080
    (by norm_num) (by norm_num) h
  exact ⟨H.2.2.2.2.1, H.2.2.2.2.2.1⟩

/-- Claim C5: the planner is idempotent — feeding a planned target size
back in under the same limits yields no-resize-needed. -/
theorem plan_idempotent (w h mW mH : ℕ) (tW tH : ℤ)
    (hp : calculateDimensions (w : ℚ) (h : ℚ) (mW : ℚ) (mH : ℚ) = some (tW, tH)) :
    calculateDimensions (tW : ℚ) (tH : ℚ) (mW : ℚ) (mH : ℚ) = none := by
  obtain ⟨hlt, htW, htH⟩ := (calculateDimensions_some_iff _ _ _ _ _ _).1 hp
  have hsle : computedScale (w : ℚ) (h : ℚ) (mW : ℚ) (mH : ℚ) ≤ 1 := computedScale_le_one _ _ _ _
  have hWle : 0 < (mW : ℚ) → (tW : ℚ) ≤ (mW : ℚ) := by
    intro hm
    have hub : (tW : ℚ) ≤ (w : ℚ) * computedScale (w : ℚ) (h : ℚ) (mW : ℚ) (mH : ℚ) + 1/2 := by
      rw [htW]; exact jsRound_le _
    have hprod : (w : ℚ) * computedScale (w : ℚ) (h : ℚ) (mW : ℚ) (mH : ℚ) ≤ (mW : ℚ) := by
      rcases le_or_lt w mW with hle | hgt
      · have hle1 : (w : ℚ) * computedScale (w : ℚ) (h : ℚ) (mW : ℚ) (mH : ℚ) ≤ (w : ℚ) :=
          mul_le_of_le_one_right (Nat.cast_nonneg w) hsle
        have hle2 : (w : ℚ) ≤ (mW : ℚ) := by exact_mod_cast hle
        linarith
      · have hmw : (mW : ℚ) < (w : ℚ) := by exact_mod_cast hgt
        have hw0 : (0 : ℚ) < (w : ℚ) := lt_trans hm hmw
        have hsw := computedScale_le_width (w : ℚ) (h : ℚ) (mW : ℚ) (mH : ℚ) hm hmw
        calc (w : ℚ) * computedScale (w : ℚ) (h : ℚ) (mW : ℚ) (mH : ℚ)
            ≤ (w : ℚ) * ((mW : ℚ) / (w : ℚ)) := mul_le_mul_of_nonneg_left hsw hw0.le
          _ = (mW : ℚ) := by field_simp
    have h1 : (tW : ℚ) < (mW : ℚ) + 1 := by linarith
    have h2 : tW < (mW : ℤ) + 1 := by exact_mod_cast h1
    have h3 : tW ≤ (mW : ℤ) := by omega
    exact_mod_cast h3
  have hHle : 0 < (mH : ℚ) → (tH : ℚ) ≤ (mH : ℚ) := by
    intro hm
    have hub : (tH : ℚ) ≤ (h : ℚ) * computedScale (w : ℚ) (h : ℚ) (mW : ℚ) (mH : ℚ) + 1/2 := by
      rw [htH]; exact jsRound_le _
    have hprod : (h : ℚ) * computedScale (w : ℚ) (h : ℚ) (mW : ℚ) (mH : ℚ) ≤ (mH : ℚ) := by
      rcases le_or_lt h mH with hle | hgt
      · have hle1 : (h : ℚ) * computedScale (w : ℚ) (h : ℚ) (mW : ℚ) (mH : ℚ) ≤ (h : ℚ) :=
          mul_le_of_le_one_right (Nat.cast_nonneg h) hsle
        have hle2 : (h : ℚ) ≤ (mH : ℚ) := by exact_mod_cast hle
        linarith
      · have hmh : (mH : ℚ) < (h : ℚ) := by exact_mod_cast hgt
        have hh0 : (0 : ℚ) < (h : ℚ) := lt_trans hm hmh
        have hsh := computedScale_le_height (w : ℚ) (h : ℚ) (mW : ℚ) (mH : ℚ) hm hmh
        calc (h : ℚ) * computedScale (w : ℚ) (h : ℚ) (mW : ℚ) (mH : ℚ)
            ≤ (h : ℚ) * ((mH : ℚ) / (h : ℚ)) := mul_le_mul_of_nonneg_left hsh hh0.le
          _ = (mH : ℚ) := by field_simp
    have h1 : (tH : ℚ) < (mH : ℚ) + 1 := by linarith
    have h2 : tH < (mH : ℤ) + 1 := by exact_mod_cast h1
    have h3 : tH ≤ (mH : ℤ) := by omega
    exact_mod_cast h3
  have c1 : ¬(0 < (mW : ℚ) ∧ (mW : ℚ) < (tW : ℚ)) := by
    rintro ⟨a, b⟩; exact absurd b (not_lt.2 (hWle a))
  have c2 : ¬(0 < (mH : ℚ) ∧ (mH : ℚ) < (tH : ℚ)) := by
    rintro ⟨a, b⟩; exact absurd b (not_lt.2 (hHle a))
  rw [calculateDimensions_eq, computedScale_eq_one _ _ _ _ c1 c2]
  simp

/-- Witness for `plan_idempotent`: planning the already-planned 1920×1080
target again under limits 1920×1080 yields `none`. -/
theorem plan_idempotent_witness :
    calculateDimensions ((1920 : ℤ) : ℚ) ((1080 : ℤ) : ℚ) ((1920 : ℕ) : ℚ) ((1080 : ℕ) : ℚ)
      = none := by
  have h : calculateDimensions ((3840 : ℕ) : ℚ) ((2160 : ℕ) : ℚ) ((1920 : ℕ) : ℚ) ((1080 : ℕ) : ℚ)
      = some (1920, 1080) := by
    push_cast
    rw [calculateDimensions_eq]
    have hs : computedScale (3840 : ℚ) 2160 1920 1080 = 1/2 := by
      rw [computedScale_def]; norm_num
    rw [hs]
    norm_num [jsRound, Int.floor_eq_iff]
  exact plan_idempotent 3840 2160 1920 1080 1920 1080 h

/-- Claim C3: whenever the computed scale is at least 1 the planner returns
`none` and `resizeImage` returns `null` (a pure no-op on the input); in
particular the scale is at least 1 whenever both limits are 0 (both
unconstrained) and whenever the image is exactly at or below every active
limit — the engine never upscales and never resizes an image exactly at a
bound. -/
theorem no_resize_when_scale_ge_one (img : DecodedImage) (fn : String)
    (st : ImageResizerSettings) (enc : ℕ) :
    (1 ≤ computedScale (img.naturalWidth : ℚ) (img.naturalHeight : ℚ)
        (st.maxWidth : ℚ) (st.maxHeight : ℚ) →
      calculateDimensions (img.naturalWidth : ℚ) (img.naturalHeight : ℚ)
        (st.maxWidth : ℚ) (st.maxHeight : ℚ) = none ∧
      resizeImage img fn st enc = none) ∧
    (st.maxWidth = 0 ∧ st.maxHeight = 0 →
      1 ≤ computedScale (img.naturalWidth : ℚ) (img.naturalHeight : ℚ)
        (st.maxWidth : ℚ) (st.maxHeight : ℚ)) ∧
    ((0 < st.maxWidth → img.naturalWidth ≤ st.maxWidth) ∧
     (0 < st.maxHeight → img.naturalHeight ≤ st.maxHeight) →
      1 ≤ computedScale (img.naturalWidth : ℚ) (img.naturalHeight : ℚ)
        (st.maxWidth : ℚ) (st.maxHeight : ℚ)) := by
  refine ⟨fun h1 => ?_, fun h2 => ?_, fun h3 => ?_⟩
  · have hplan : calculateDimensions (img.naturalWidth : ℚ) (img.naturalHeight : ℚ)
        (st.maxWidth : ℚ) (st.maxHeight : ℚ) = none := by
      rw [calculateDimensions_eq, if_pos h1]
    exact ⟨hplan, by simp only [resizeImage, hplan]⟩
  · have c1 : ¬(0 < (st.maxWidth : ℚ) ∧ (st.maxWidth : ℚ) < (img.naturalWidth : ℚ)) := by
      rw [h2.1]; push_cast; rintro ⟨a, -⟩; exact lt_irrefl _ a
    have c2 : ¬(0 < (st.maxHeight : ℚ) ∧ (st.maxHeight : ℚ) < (img.naturalHeight : ℚ)) := by
      rw [h2.2]; push_cast; rintro ⟨a, -⟩; exact lt_irrefl _ a
    rw [computedScale_eq_one _ _ _ _ c1 c2]
  · have c1 : ¬(0 < (st.maxWidth : ℚ) ∧ (st.maxWidth : ℚ) < (img.naturalWidth : ℚ)) := by
      rintro ⟨a, b⟩
      have a' : 0 < st.maxWidth := by exact_mod_cast a
      have b' : st.maxWidth < img.naturalWidth := by exact_mod_cast b
      exact absurd b' (not_lt.2 (h3.1 a'))
    have c2 : ¬(0 < (st.maxHeight : ℚ) ∧ (st.maxHeight : ℚ) < (img.naturalHeight : ℚ)) := by
      rintro ⟨a, b⟩
      have a' : 0 < st.maxHeight := by exact_mod_cast a
      have b' : st.maxHeight < img.naturalHeight := by exact_mod_cast b
      exact absurd b' (not_lt.2 (h3.2 a'))
    rw [computedScale_eq_one _ _ _ _ c1 c2]

/-- Witness for `no_resize_when_scale_ge_one`: an 800×600 JPEG under the
default 1920×1080 limits is left untouched — the engine returns `null`. -/
theorem no_resize_when_scale_ge_one_witness :
    resizeImage ⟨800, 600⟩ "photo.jpg" DEFAULT_SETTINGS 0 = none := by
  have H := no_resize_when_scale_ge_one ⟨800, 600⟩ "photo.jpg" DEFAULT_SETTINGS 0
  refine (H.1 ?_).2
  exact H.2.2 ⟨fun _ => by norm_num [DEFAULT_SETTINGS], fun _ => by norm_num [DEFAULT_SETTINGS]⟩

/-- Claim C8: for every successful resize, `newExtension` is non-null iff
the (lowercased, last-dot-segment) input extension is `"png"` and
convert-to-JPEG is enabled, in which case it is exactly `"jpg"`; otherwise
it is `none`. -/
theorem newExtension_iff_png_conversion (img : DecodedImage) (fn : String)
    (st : ImageResizerSettings) (enc : ℕ) (r : ResizeResult)
    (hp : resizeImage img fn st enc = some r) :
    (r.newExtension ≠ none ↔ st.convertToJpeg = true ∧ getExtension fn = "png") ∧
    (st.convertToJpeg = true ∧ getExtension fn = "png" → r.newExtension = some "jpg") ∧
    (¬(st.convertToJpeg = true ∧ getExtension fn = "png") → r.newExtension = none) := by
  unfold resizeImage at hp
  rcases hcd : calculateDimensions (img.naturalWidth : ℚ) (img.naturalHeight : ℚ)
      (st.maxWidth : ℚ) (st.maxHeight : ℚ) with - | ⟨tW, tH⟩
  · rw [hcd] at hp; exact absurd hp (by simp)
  · rw [hcd] at hp
    simp only [Option.some.injEq] at hp
    subst hp
    by_cases hc : st.convertToJpeg = true ∧ getExtension fn = "png"
    · have hb : (st.convertToJpeg && (getExtension fn == "png")) = true := by
        simp [hc.1, hc.2]
      simp [hb, hc]
    · have hb : (st.convertToJpeg && (getExtension fn == "png")) = false := by
        rw [Bool.and_eq_false_iff]
        by_cases ha : st.convertToJpeg = true
        · right
          rw [beq_eq_false_iff_ne]
          exact fun hx => hc ⟨ha, hx⟩
        · left; exact Bool.eq_false_iff.2 ha
      simp [hb, hc]

/-- Witness for `newExtension_iff_png_conversion`: a 4000×1000 PNG resized
with convert-to-JPEG enabled reports `newExtension = some "jpg"`. -/
theorem newExtension_iff_png_conversion_witness :
    ((resizeImage ⟨4000, 1000⟩ "shot.png"
        { DEFAULT_SETTINGS with maxHeight := 0, convertToJpeg := true } 7).map
      (fun r => r.newExtension)) = some (some "jpg") := by
  have hs : computedScale (4000 : ℚ) 1000 1920 0 = 12/25 := by
    rw [computedScale_def]; norm_num
  have hcd : calculateDimensions (4000 : ℚ) (1000 : ℚ) (1920 : ℚ) (0 : ℚ)
      = some (1920, 480) := by
    rw [calculateDimensions_eq, hs]
    norm_num [jsRound, Int.floor_eq_iff]
  have hext : getExtension "shot.png" = "png" := by decide
  have hr : resizeImage ⟨4000, 1000⟩ "shot.png"
      { DEFAULT_SETTINGS with maxHeight := 0, convertToJpeg := true } 7 =
      some { data := 7, width := 1920, height := 480, originalWidth := 4000,
             originalHeight := 1000, newExtension := some "jpg" } := by
    simp [resizeImage, DEFAULT_SETTINGS, hcd, hext]
  have H := newExtension_iff_png_conversion ⟨4000, 1000⟩ "shot.png"
    { DEFAULT_SETTINGS with maxHeight := 0, convertToJpeg := true } 7 _ hr
  rw [hr]
  exact congrArg some (H.2.1 ⟨rfl, hext⟩)

theorem splitDot_no_dot (cs : List Char) (h : '.' ∉ cs) : splitDot cs = [cs] := by
  induction cs with
  | nil => rfl
  | cons c rest ih =>
    have hc : ¬(c = '.') := fun hx => h (hx ▸ List.mem_cons_self c rest)
    have hr : '.' ∉ rest := fun hx => h (List.mem_cons_of_mem c hx)
    simp only [splitDot, if_neg hc, ih hr]

/-- Claim C9: `isImageFile` keys on the lowercased segment after the LAST
dot; a filename without any dot uses the entire lowercased filename — so a
bare filename `"png"`, `"jpg"`, `"jpeg"`, `"webp"` or `"bmp"` counts as a
supported image, while any filename whose last dot-segment is outside the
set is rejected. -/
theorem isImageFile_last_segment_semantics :
    (∀ f : String, isImageFile f = true ↔ getExtension f ∈ IMAGE_EXTENSIONS) ∧
    (∀ f : String, '.' ∉ f.data →
      getExtension f = String.mk (f.data.map Char.toLower)) ∧
    isImageFile "png" = true ∧ isImageFile "jpg" = true ∧ isImageFile "jpeg" = true ∧
    isImageFile "webp" = true ∧ isImageFile "bmp" = true ∧
    isImageFile "PHOTO.PNG" = true ∧ isImageFile "photo.txt" = false ∧
    isImageFile "archive.tar.gz" = false := by
  refine ⟨fun f => ?_, fun f hf => ?_, ?_, ?_, ?_, ?_, ?_, ?_, ?_, ?_⟩
  · simp [isImageFile]
  · unfold getExtension
    rw [splitDot_no_dot f.data hf]
    simp
  all_goals decide

/-- Witness for `isImageFile_last_segment_semantics` at the dotless
filename `"png"`: the whole lowercased name is the extension and the file
counts as a supported image. -/
theorem isImageFile_last_segment_semantics_witness :
    getExtension "png" = String.mk ("png".data.map Char.toLower) ∧
    isImageFile "png" = true := by
  refine ⟨isImageFile_last_segment_semantics.2.1 "png" (by decide), ?_⟩
  exact (isImageFile_last_segment_semantics.1 "png").2 (by decide)

/-- An Obsidian `TFile` as the plugin uses it: vault path and basename. -/
structure TFile where
  path : String
  name : String
deriving DecidableEq

/-- JavaScript `Map.get` on an association-list representation. -/
def mapGet : List (String × ℕ) → String → Option ℕ
  | [], _ => none
  | e :: m, k => if e.1 == k then some e.2 else mapGet m k

/-- Remove a key (helper for `Map.set` / `Map.delete`). -/
def mapDelete : List (String × ℕ) → String → List (String × ℕ)
  | [], _ => []
  | e :: m, k => if e.1 == k then mapDelete m k else e :: mapDelete m k

/-- JavaScript `Map.set`: at most one entry per key. -/
def mapSet (m : List (String × ℕ)) (k : String) (v : ℕ) : List (String × ℕ) :=
  (k, v) :: mapDelete m k

/-- Lookup a timer id in the creation history (the closure captured by
`setTimeout` knows its file; firing timer `t` recovers its path here). -/
def createdLookup : List (ℕ × String) → ℕ → Option (ℕ × String)
  | [], _ => none
  | e :: m, t => if e.1 == t then some e else createdLookup m t

/-- The mutable state of `ImageResizerPlugin` (`src/main.ts` lines 9-27)
plus explicit `setTimeout` bookkeeping: `created` records every timer ever
armed (id, path), `cancelled` the ids passed to `clearTimeout`, `firedIds`
the ids whose callbacks have run, and `nextId` the fresh-id counter. -/
structure PluginState where
  processing : List String
  pending : List (String × ℕ)
  ready : Bool
  created : List (ℕ × String)
  cancelled : List ℕ
  firedIds : List ℕ
  nextId : ℕ

/-- Field initializers of `ImageResizerPlugin`: empty guard set, empty
pending map, `ready = false`. -/
def initState : PluginState :=
  { processing := [], pending := [], ready := false,
    created := [], cancelled := [], firedIds := [], nextId := 0 }

/-- `src/main.ts` `scheduleResize` (lines 116-133): ready gate, image
check, guard check, then clear any existing pending timer and arm a fresh
one. -/
def scheduleResize (st : PluginState) (file : TFile) : PluginState :=
  if !st.ready then st
  else if !(isImageFile file.name) then st
  else if st.processing.contains file.path then st
  else
    let st1 :=
      match mapGet st.pending file.path with
      | some t => { st with cancelled := t :: st.cancelled }
      | none => st
    { st1 with
      pending := mapSet st1.pending file.path st1.nextId,
      created := (st1.nextId, file.path) :: st1.created,
      nextId := st1.nextId + 1 }

/-- Firing of timer `t`: a cancelled or already-fired timer does nothing;
otherwise the callback of `src/main.ts` lines 127-130 runs — it deletes
its path from `pending` and invokes processing for that path (returned as
`some path`). -/
def fireTimer (st : PluginState) (t : ℕ) : PluginState × Option String :=
  if st.cancelled.contains t || st.firedIds.contains t then (st, none)
  else
    match createdLookup st.created t with
    | none => (st, none)
    | some e =>
      ({ st with pending := mapDelete st.pending e.2, firedIds := t :: st.firedIds },
       some e.2)

/-- The operations that touch the scheduling state: the one-way
`onLayoutReady` gate, a create/modify event reaching `scheduleResize`, and
a timer firing. -/
inductive Op
  | setReady
  | schedule (file : TFile)
  | fire (t : ℕ)

def applyOp (st : PluginState) (op : Op) : PluginState :=
  match op with
  | .setReady => { st with ready := true }
  | .schedule file => scheduleResize st file
  | .fire t => (fireTimer st t).1

/-- Timer `t` is an active (armed) debounce timer for path `p`: it was
created for `p` and has been neither cancelled nor fired. -/
def isArmedFor (st : PluginState) (t : ℕ) (p : String) : Prop :=
  (t, p) ∈ st.created ∧ t ∉ st.cancelled ∧ t ∉ st.firedIds

/-- Inductive invariant of the scheduling state: ids are bounded by the
fresh counter, an id maps to a single path, and the pending map holds
exactly the armed timers. -/
structure SchedInv (st : PluginState) : Prop where
  created_lt : ∀ e ∈ st.created, e.1 < st.nextId
  cancelled_lt : ∀ t ∈ st.cancelled, t < st.nextId
  fired_lt : ∀ t ∈ st.firedIds, t < st.nextId
  created_fun : ∀ t p p', (t, p) ∈ st.created → (t, p') ∈ st.created → p = p'
  armed_iff : ∀ p t, isArmedFor st t p ↔ mapGet st.pending p = some t

/-- Fire every timer id in the list in order, collecting the paths whose
processing callback ran. -/
def fireAll : PluginState → List ℕ → PluginState × List String
  | st, [] => (st, [])
  | st, t :: rest =>
    let r := fireTimer st t
    let res := fireAll r.1 rest
    (res.1, r.2.toList ++ res.2)

/-- `n` successive create/modify events for the same file, inside the
debounce quiet window (no timer fires in between). -/
def schedN (st : PluginState) (f : TFile) : ℕ → PluginState
  | 0 => st
  | n + 1 => scheduleResize (schedN st f n) f

theorem mapGet_delete_self (m : List (String × ℕ)) (k : String) :
    mapGet (mapDelete m k) k = none := by
  induction m with
  | nil => rfl
  | cons e m ih =>
    by_cases he : e.1 = k
    · simp only [mapDelete, if_pos (by simp [he] : (e.1 == k) = true)]
      exact ih
    · simp only [mapDelete, if_neg (by simp [he] : ¬((e.1 == k) = true)), mapGet]
      exact ih

theorem mapGet_delete_ne (m : List (String × ℕ)) (k k' : String) (h : ¬(k' = k)) :
    mapGet (mapDelete m k) k' = mapGet m k' := by
  induction m with
  | nil => rfl
  | cons e m ih =>
    by_cases he : e.1 = k
    · have hb : (e.1 == k') = false := by
        simp [he]; exact fun hx => h hx.symm
      simp only [mapDelete, if_pos (by simp [he] : (e.1 == k) = true), ih, mapGet, hb]
      simp
    · simp only [mapDelete, if_neg (by simp [he] : ¬((e.1 == k) = true)), mapGet, ih]

theorem mapGet_set_self (m : List (String × ℕ)) (k : String) (v : ℕ) :
    mapGet (mapSet m k v) k = some v := by
  simp [mapSet, mapGet]

theorem mapGet_set_ne (m : List (String × ℕ)) (k k' : String) (v : ℕ) (h : ¬(k' = k)) :
    mapGet (mapSet m k v) k' = mapGet m k' := by
  have hb : (k == k') = false := by
    simp; exact fun hx => h hx.symm
  simp only [mapSet, mapGet, hb]
  rw [if_neg (show ¬(false = true) by simp)]
  exact mapGet_delete_ne m k k' h

theorem createdLookup_some (m : List (ℕ × String)) (t : ℕ) (e : ℕ × String)
    (h : createdLookup m t = some e) : e ∈ m ∧ e.1 = t := by
  induction m with
  | nil => cases h
  | cons a m ih =>
    simp only [createdLookup] at h
    by_cases ha : (a.1 == t) = true
    · rw [if_pos ha] at h
      injection h with h
      subst h
      exact ⟨List.mem_cons_self _ _, by simpa using ha⟩
    · rw [if_neg ha] at h
      obtain ⟨h1, h2⟩ := ih h
      exact ⟨List.mem_cons_of_mem _ h1, h2⟩

theorem createdLookup_none (m : List (ℕ × String)) (t : ℕ)
    (h : createdLookup m t = none) : ∀ p, (t, p) ∉ m := by
  induction m with
  | nil => intro p hp; cases hp
  | cons a m ih =>
    simp only [createdLookup] at h
    by_cases ha : (a.1 == t) = true
    · rw [if_pos ha] at h; cases h
    · rw [if_neg ha] at h
      intro p hp
      rcases List.mem_cons.1 hp with heq | hp'
      · rw [← heq] at ha
        simp at ha
      · exact ih h p hp'

theorem schedInv_init : SchedInv initState := by
  constructor <;> simp [initState, isArmedFor, mapGet]

theorem schedInv_setReady (st : PluginState) (h : SchedInv st) :
    SchedInv { st with ready := true } :=
  ⟨h.created_lt, h.cancelled_lt, h.fired_lt, h.created_fun, h.armed_iff⟩

theorem schedInv_schedule (st : PluginState) (f : TFile) (h : SchedInv st) :
    SchedInv (scheduleResize st f) := by
  unfold scheduleResize
  split_ifs with h1 h2 h3
  · exact h
  · exact h
  · exact h
  rcases hm : mapGet st.pending f.path with - | t₀ <;> simp only [hm]
  · refine ⟨?_, ?_, ?_, ?_, ?_⟩
    · intro e he
      rcases List.mem_cons.1 he with rfl | he'
      · exact Nat.lt_succ_self _
      · exact Nat.lt_succ_of_lt (h.created_lt e he')
    · intro t ht
      exact Nat.lt_succ_of_lt (h.cancelled_lt t ht)
    · intro t ht
      exact Nat.lt_succ_of_lt (h.fired_lt t ht)
    · intro t q q' hq hq'
      rcases List.mem_cons.1 hq with heq | hq0 <;> rcases List.mem_cons.1 hq' with heq' | hq0'
      · injection heq with he1 he2
        injection heq' with he1' he2'
        rw [he2, he2']
      · injection heq with he1 he2
        have hlt : t < st.nextId := h.created_lt (t, q') hq0'
        omega
      · injection heq' with he1' he2'
        have hlt : t < st.nextId := h.created_lt (t, q) hq0
        omega
      · exact h.created_fun t q q' hq0 hq0'
    · intro q t
      simp only [isArmedFor]
      by_cases hq : q = f.path
      · subst hq
        rw [mapGet_set_self]
        constructor
        · rintro ⟨hmem, hc, hf⟩
          rcases List.mem_cons.1 hmem with heq | hmem'
          · injection heq with he1 he2
            rw [he1]
          · have := (h.armed_iff f.path t).1 ⟨hmem', hc, hf⟩
            rw [hm] at this
            cases this
        · intro hsome
          injection hsome with hsome
          subst hsome
          refine ⟨List.mem_cons_self _ _, fun hc => ?_, fun hf => ?_⟩
          · exact absurd (h.cancelled_lt _ hc) (lt_irrefl _)
          · exact absurd (h.fired_lt _ hf) (lt_irrefl _)
      · rw [mapGet_set_ne _ _ _ _ hq]
        constructor
        · rintro ⟨hmem, hc, hf⟩
          rcases List.mem_cons.1 hmem with heq | hmem'
          · injection heq with he1 he2
            exact absurd he2 hq
          · exact (h.armed_iff q t).1 ⟨hmem', hc, hf⟩
        · intro hg
          obtain ⟨hmem, hc, hf⟩ := (h.armed_iff q t).2 hg
          exact ⟨List.mem_cons_of_mem _ hmem, hc, hf⟩
  · obtain ⟨hmem₀, hc₀, hf₀⟩ := (h.armed_iff f.path t₀).2 hm
    have hlt₀ : t₀ < st.nextId := h.created_lt _ hmem₀
    refine ⟨?_, ?_, ?_, ?_, ?_⟩
    · intro e he
      rcases List.mem_cons.1 he with rfl | he'
      · exact Nat.lt_succ_self _
      · exact Nat.lt_succ_of_lt (h.created_lt e he')
    · intro t ht
      rcases List.mem_cons.1 ht with rfl | ht'
      · exact Nat.lt_succ_of_lt hlt₀
      · exact Nat.lt_succ_of_lt (h.cancelled_lt t ht')
    · intro t ht
      exact Nat.lt_succ_of_lt (h.fired_lt t ht)
    · intro t q q' hq hq'
      rcases List.mem_cons.1 hq with heq | hq0 <;> rcases List.mem_cons.1 hq' with heq' | hq0'
      · injection heq with he1 he2
        injection heq' with he1' he2'
        rw [he2, he2']
      · injection heq with he1 he2
        have hlt : t < st.nextId := h.created_lt (t, q') hq0'
        omega
      · injection heq' with he1' he2'
        have hlt : t < st.nextId := h.created_lt (t, q) hq0
        omega
      · exact h.created_fun t q q' hq0 hq0'
    · intro q t
      simp only [isArmedFor]
      by_cases hq : q = f.path
      · subst hq
        rw [mapGet_set_self]
        constructor
        · rintro ⟨hmem, hc, hf⟩
          rcases List.mem_cons.1 hmem with heq | hmem'
          · injection heq with he1 he2
            rw [he1]
          · have hc' : t ∉ st.cancelled := fun hx => hc (List.mem_cons_of_mem _ hx)
            have := (h.armed_iff f.path t).1 ⟨hmem', hc', hf⟩
            rw [hm] at this
            injection this with hte
            subst hte
            exact absurd (List.mem_cons_self _ _) hc
        · intro hsome
          injection hsome with hsome
          subst hsome
          refine ⟨List.mem_cons_self _ _, fun hx => ?_, fun hx => ?_⟩
          · rcases List.mem_cons.1 hx with heq | hx'
            · omega
            · exact absurd (h.cancelled_lt _ hx') (lt_irrefl _)
          · exact absurd (h.fired_lt _ hx) (lt_irrefl _)
      · rw [mapGet_set_ne _ _ _ _ hq]
        constructor
        · rintro ⟨hmem, hc, hf⟩
          rcases List.mem_cons.1 hmem with heq | hmem'
          · injection heq with he1 he2
            exact absurd he2 hq
          · have hc' : t ∉ st.cancelled := fun hx => hc (List.mem_cons_of_mem _ hx)
            exact (h.armed_iff q t).1 ⟨hmem', hc', hf⟩
        · intro hg
          obtain ⟨hmem, hc, hf⟩ := (h.armed_iff q t).2 hg
          refine ⟨List.mem_cons_of_mem _ hmem, fun hx => ?_, hf⟩
          rcases List.mem_cons.1 hx with heq | hx'
          · subst heq
            exact hq (h.created_fun t q f.path hmem hmem₀)
          · exact hc hx'

theorem schedInv_fire (st : PluginState) (t : ℕ) (h : SchedInv st) :
    SchedInv (fireTimer st t).1 := by
  unfold fireTimer
  split_ifs with hcf
  · exact h
  rcases hl : createdLookup st.created t with - | e <;> simp only [hl]
  · exact h
  · obtain ⟨hmem, het⟩ := createdLookup_some _ _ _ hl
    have hnc : t ∉ st.cancelled := by
      intro hx; apply hcf; simp [hx]
    have hnf : t ∉ st.firedIds := by
      intro hx; apply hcf; simp [hx]
    have hmem' : (t, e.2) ∈ st.created := by
      rw [← het]; exact hmem
    have hp : mapGet st.pending e.2 = some t := (h.armed_iff e.2 t).1 ⟨hmem', hnc, hnf⟩
    refine ⟨h.created_lt, h.cancelled_lt, ?_, h.created_fun, ?_⟩
    · intro r hr
      rcases List.mem_cons.1 hr with rfl | hr'
      · exact het ▸ h.created_lt e hmem
      · exact h.fired_lt r hr'
    · intro q t'
      simp only [isArmedFor]
      by_cases hq : q = e.2
      · subst hq
        rw [mapGet_delete_self]
        constructor
        · rintro ⟨hmem2, hc2, hf2⟩
          have hf2' : t' ∉ st.firedIds := fun hx => hf2 (List.mem_cons_of_mem _ hx)
          have := (h.armed_iff e.2 t').1 ⟨hmem2, hc2, hf2'⟩
          rw [hp] at this
          injection this with hte
          subst hte
          exact absurd (List.mem_cons_self _ _) hf2
        · intro hx; cases hx
      · rw [mapGet_delete_ne _ _ _ hq]
        constructor
        · rintro ⟨hmem2, hc2, hf2⟩
          exact (h.armed_iff q t').1 ⟨hmem2, hc2, fun hx => hf2 (List.mem_cons_of_mem _ hx)⟩
        · intro hg
          obtain ⟨hmem2, hc2, hf2⟩ := (h.armed_iff q t').2 hg
          refine ⟨hmem2, hc2, fun hx => ?_⟩
          rcases List.mem_cons.1 hx with heq | hx'
          · subst heq
            exact hq (h.created_fun t' q e.2 hmem2 hmem')
          · exact hf2 hx'

theorem schedInv_applyOp (st : PluginState) (op : Op) (h : SchedInv st) :
    SchedInv (applyOp st op) := by
  cases op with
  | setReady => exact schedInv_setReady st h
  | schedule f => exact schedInv_schedule st f h
  | fire t => exact schedInv_fire st t h

theorem fireTimer_spec (st : PluginState) (t : ℕ) (hInv : SchedInv st) :
    ((fireTimer st t).2 = none ∧ (fireTimer st t).1 = st ∧ ∀ q, ¬ isArmedFor st t q) ∨
    (∃ q, (fireTimer st t).2 = some q ∧ isArmedFor st t q ∧
      (fireTimer st t).1 =
        { st with pending := mapDelete st.pending q, firedIds := t :: st.firedIds }) := by
  unfold fireTimer
  split_ifs with hcf
  · left
    refine ⟨rfl, rfl, ?_⟩
    intro q hq
    rcases (by simpa using hcf : t ∈ st.cancelled ∨ t ∈ st.firedIds) with hx | hx
    · exact hq.2.1 hx
    · exact hq.2.2 hx
  · rcases hl : createdLookup st.created t with - | e
    · left
      refine ⟨?_, ?_, fun q hq => createdLookup_none _ _ hl q hq.1⟩
      · simp only [hl]
      · simp only [hl]
    · right
      obtain ⟨hmem, het⟩ := createdLookup_some _ _ _ hl
      have hnc : t ∉ st.cancelled := fun hx => hcf (by simp [hx])
      have hnf : t ∉ st.firedIds := fun hx => hcf (by simp [hx])
      have hmem' : (t, e.2) ∈ st.created := by rw [← het]; exact hmem
      refine ⟨e.2, ?_, ⟨hmem', hnc, hnf⟩, ?_⟩
      · simp only [hl]
      · simp only [hl]

theorem fireAll_count_zero (ids : List ℕ) (st : PluginState) (p : String)
    (hInv : SchedInv st) (hnone : mapGet st.pending p = none) :
    (fireAll st ids).2.count p = 0 ∧ SchedInv (fireAll st ids).1 ∧
      mapGet (fireAll st ids).1.pending p = none := by
  induction ids generalizing st with
  | nil => exact ⟨rfl, hInv, hnone⟩
  | cons t rest ih =>
    have hInv' := schedInv_fire st t hInv
    rcases fireTimer_spec st t hInv with ⟨hn, hst, -⟩ | ⟨q, hsq, harm, hst⟩
    · obtain ⟨c1, c2, c3⟩ := ih (fireTimer st t).1 (by rw [hst]; exact hInv) (by rw [hst]; exact hnone)
      refine ⟨?_, c2, c3⟩
      show ((fireTimer st t).2.toList ++ (fireAll (fireTimer st t).1 rest).2).count p = 0
      rw [hn]
      simpa using c1
    · have hpq : ¬(p = q) := by
        rintro rfl
        have := (hInv.armed_iff p t).1 harm
        rw [hnone] at this
        cases this
      have hpend : mapGet (fireTimer st t).1.pending p = none := by
        rw [hst]
        show mapGet (mapDelete st.pending q) p = none
        rw [mapGet_delete_ne _ _ _ hpq]
        exact hnone
      obtain ⟨c1, c2, c3⟩ := ih (fireTimer st t).1 hInv' hpend
      refine ⟨?_, c2, c3⟩
      show ((fireTimer st t).2.toList ++ (fireAll (fireTimer st t).1 rest).2).count p = 0
      rw [hsq]
      have hqp : ¬(q = p) := fun hx => hpq hx.symm
      simp [List.count_cons, c1, hqp]

theorem fireAll_count_one (ids : List ℕ) (st : PluginState) (p : String) (ts : ℕ)
    (hInv : SchedInv st) (hsome : mapGet st.pending p = some ts) (hmem : ts ∈ ids) :
    (fireAll st ids).2.count p = 1 := by
  induction ids generalizing st ts with
  | nil => cases hmem
  | cons t rest ih =>
    have hInv' := schedInv_fire st t hInv
    have harmS : isArmedFor st ts p := (hInv.armed_iff p ts).2 hsome
    rcases fireTimer_spec st t hInv with ⟨hn, hst, hnone⟩ | ⟨q, hsq, harm, hst⟩
    · have hts : ¬(t = ts) := fun hx => hnone p (hx ▸ harmS)
      have hmem' : ts ∈ rest := by
        rcases List.mem_cons.1 hmem with hx | hx
        · exact absurd hx.symm hts
        · exact hx
      show ((fireTimer st t).2.toList ++ (fireAll (fireTimer st t).1 rest).2).count p = 1
      rw [hn, hst]
      simpa using ih st ts hInv hsome hmem'
    · by_cases hqp : q = p
      · subst hqp
        have ht : mapGet st.pending q = some t := (hInv.armed_iff q t).1 harm
        have hpnone : mapGet (fireTimer st t).1.pending q = none := by
          rw [hst]
          show mapGet (mapDelete st.pending q) q = none
          exact mapGet_delete_self _ _
        obtain ⟨c1, -, -⟩ := fireAll_count_zero rest (fireTimer st t).1 q hInv' hpnone
        show ((fireTimer st t).2.toList ++ (fireAll (fireTimer st t).1 rest).2).count q = 1
        rw [hsq]
        simp [List.count_cons, c1]
      · have hts : ¬(t = ts) := by
          rintro rfl
          exact hqp (hInv.created_fun t q p harm.1 harmS.1)
        have hmem' : ts ∈ rest := by
          rcases List.mem_cons.1 hmem with hx | hx
          · exact absurd hx.symm hts
          · exact hx
        have hpend : mapGet (fireTimer st t).1.pending p = some ts := by
          rw [hst]
          show mapGet (mapDelete st.pending q) p = some ts
          rw [mapGet_delete_ne _ _ _ (fun hx => hqp hx.symm)]
          exact hsome
        show ((fireTimer st t).2.toList ++ (fireAll (fireTimer st t).1 rest).2).count p = 1
        rw [hsq]
        simp only [Option.toList_some, List.singleton_append, List.count_cons]
        have hb : (q == p) = false := by
          rw [beq_eq_false_iff_ne]; exact hqp
        rw [hb]
        simpa using ih (fireTimer st t).1 ts hInv' hpend hmem'

theorem scheduleResize_step (st : PluginState) (f : TFile)
    (hr : st.ready = true) (hi : isImageFile f.name = true)
    (hg : st.processing.contains f.path = false) :
    mapGet (scheduleResize st f).pending f.path = some st.nextId ∧
    (scheduleResize st f).ready = st.ready ∧
    (scheduleResize st f).processing = st.processing ∧
    (scheduleResize st f).nextId = st.nextId + 1 ∧
    (∀ t₀, mapGet st.pending f.path = some t₀ → t₀ ∈ (scheduleResize st f).cancelled) := by
  unfold scheduleResize
  split_ifs with a b c
  · rw [hr] at a; simp at a
  · rw [hi] at b; simp at b
  · rw [hg] at c; cases c
  rcases hm : mapGet st.pending f.path with - | t₀
  · refine ⟨?_, ?_, ?_, ?_, ?_⟩
    · simp only [hm]
      exact mapGet_set_self _ _ _
    · simp only [hm]
    · simp only [hm]
    · simp only [hm]
    · intro t₁ h1
      cases h1
  · refine ⟨?_, ?_, ?_, ?_, ?_⟩
    · simp only [hm]
      exact mapGet_set_self _ _ _
    · simp only [hm]
    · simp only [hm]
    · simp only [hm]
    · intro t₁ h1
      injection h1 with h1
      subst h1
      simp [hm]

theorem schedN_spec (st : PluginState) (f : TFile) (n : ℕ)
    (hInv : SchedInv st) (hr : st.ready = true) (hi : isImageFile f.name = true)
    (hg : st.processing.contains f.path = false) :
    SchedInv (schedN st f n) ∧ (schedN st f n).ready = true ∧
    (schedN st f n).processing = st.processing ∧
    (1 ≤ n → ∃ ts, mapGet (schedN st f n).pending f.path = some ts ∧
      ts < (schedN st f n).nextId) := by
  induction n with
  | zero => exact ⟨hInv, hr, rfl, fun hx => absurd hx (by norm_num)⟩
  | succ n ih =>
    obtain ⟨ih1, ih2, ih3, -⟩ := ih
    have hg' : (schedN st f n).processing.contains f.path = false := by
      rw [ih3]; exact hg
    have hstep := scheduleResize_step (schedN st f n) f ih2 hi hg'
    refine ⟨schedInv_schedule _ f ih1, ?_, ?_, ?_⟩
    · show (scheduleResize (schedN st f n) f).ready = true
      rw [hstep.2.1, ih2]
    · show (scheduleResize (schedN st f n) f).processing = st.processing
      rw [hstep.2.2.1, ih3]
    · intro _
      refine ⟨(schedN st f n).nextId, hstep.1, ?_⟩
      show (schedN st f n).nextId < (scheduleResize (schedN st f n) f).nextId
      rw [hstep.2.2.2.1]
      omega

/-- Claim C6: the scheduling invariant (pending map holding exactly the
armed timers, at most one per path) holds initially and is preserved by
every operation; in an invariant state no path has two active debounce
timers; scheduling over an existing pending timer puts that timer into the
cancelled set first; and N ≥ 1 rapid events for the same (ready, image,
unguarded) file followed by the quiet window elapsing — every outstanding
timer firing — invoke the processing callback for that path exactly once. -/
theorem debounce_single_timer_single_invocation (st : PluginState) (f : TFile) (n : ℕ)
    (hInv : SchedInv st) (hr : st.ready = true) (hi : isImageFile f.name = true)
    (hg : st.processing.contains f.path = false) (hn : 1 ≤ n) :
    SchedInv initState ∧
    (∀ s op, SchedInv s → SchedInv (applyOp s op)) ∧
    (∀ p t t', isArmedFor st t p → isArmedFor st t' p → t = t') ∧
    (∀ t₀, mapGet st.pending f.path = some t₀ → t₀ ∈ (scheduleResize st f).cancelled) ∧
    (fireAll (schedN st f n) (List.range (schedN st f n).nextId)).2.count f.path = 1 := by
  refine ⟨schedInv_init, fun s op hs => schedInv_applyOp s op hs, ?_, ?_, ?_⟩
  · intro p t t' h1 h2
    have e1 := (hInv.armed_iff p t).1 h1
    have e2 := (hInv.armed_iff p t').1 h2
    rw [e1] at e2
    exact Option.some.inj e2
  · exact fun t₀ h0 => (scheduleResize_step st f hr hi hg).2.2.2.2 t₀ h0
  · obtain ⟨hInvN, -, -, hex⟩ := schedN_spec st f n hInv hr hi hg
    obtain ⟨ts, hts, hlt⟩ := hex hn
    exact fireAll_count_one _ _ _ ts hInvN hts (List.mem_range.2 hlt)

/-- Witness for `debounce_single_timer_single_invocation`: from the freshly
loaded plugin after the layout-ready gate opens, three rapid events for
`im/a.png` followed by the window elapsing fire the processing callback
exactly once. -/
theorem debounce_single_timer_single_invocation_witness :
    (fireAll (schedN (applyOp initState Op.setReady) ⟨"im/a.png", "a.png"⟩ 3)
      (List.range (schedN (applyOp initState Op.setReady) ⟨"im/a.png", "a.png"⟩ 3).nextId)).2.count
      "im/a.png" = 1 := by
  have h0 : SchedInv (applyOp initState Op.setReady) :=
    schedInv_applyOp initState Op.setReady schedInv_init
  exact (debounce_single_timer_single_invocation (applyOp initState Op.setReady)
    ⟨"im/a.png", "a.png"⟩ 3 h0 rfl (by decide) rfl (by norm_num)).2.2.2.2

/-- The regex replace `name.replace(/\.[^.]+$/, "." ++ newExt)` on a
character list: if the name ends in a dot followed by one or more non-dot
characters, that final ".ext" segment is replaced; otherwise the name is
returned unchanged. -/
def replaceExtChars (s : List Char) (newExt : List Char) : List Char :=
  let rev := s.reverse
  let seg := rev.takeWhile (fun c => !(c == '.'))
  if seg.length = 0 then s
  else
    match rev.drop seg.length with
    | '.' :: restRev => restRev.reverse ++ '.' :: newExt
    | _ => s

/-- String wrapper for `replaceExtChars`. -/
def replaceExtLast (s : String) (newExt : String) : String :=
  String.mk (replaceExtChars s.data newExt.data)

/-- JavaScript `String.prototype.replace(pattern, replacement)` with a
plain-string pattern: replaces only the FIRST occurrence. -/
def replaceFirstChars : List Char → List Char → List Char → List Char
  | [], pat, rep => if pat.isEmpty then rep else []
  | c :: rest, pat, rep =>
    if pat.isPrefixOf (c :: rest) then rep ++ (c :: rest).drop pat.length
    else c :: replaceFirstChars rest pat rep

/-- String wrapper for `replaceFirstChars`. -/
def replaceFirstStr (s : String) (pat : String) (rep : String) : String :=
  String.mk (replaceFirstChars s.data pat.data rep.data)

/-- Vault storage: association list from path to an opaque content id. -/
abbrev Vault := List (String × ℕ)

/-- `vault.getAbstractFileByPath` / reading: first entry with the path. -/
def vaultLookup : Vault → String → Option ℕ
  | [], _ => none
  | e :: v, p => if e.1 == p then some e.2 else vaultLookup v p

/-- `vault.modifyBinary`: overwrite the contents stored at an existing
path. -/
def vaultModify (v : Vault) (p : String) (d : ℕ) : Vault :=
  v.map (fun e => if e.1 == p then (e.1, d) else e)

/-- `fileManager.renameFile`: move an entry to a new path. -/
def vaultRename (v : Vault) (oldPath newPath : String) : Vault :=
  v.map (fun e => if e.1 == oldPath then (newPath, e.2) else e)

/-- What `readBinary` + `resizeImage` produced for a file: the engine's
result, or a thrown error (decode/encode/read failure). -/
inductive EngineResult
  | ok (r : Option ResizeResult)
  | thrown

/-- Observable side effects of the single-file path, in order. -/
inductive PEvent
  | readFile (p : String)
  | engineCall (p : String)
  | writeBack (p : String)
  | renamed (oldPath newPath : String)
deriving DecidableEq

/-- Result of one `processFile` call: the guard set, the vault, and the
emitted effects. -/
structure FileOpResult where
  processing : List String
  vault : Vault
  events : List PEvent
deriving DecidableEq

/-- `src/main.ts` `processFile` (lines 267-335): guard check, image check,
toggle check, then guard-mark, read, resize, and write-back — renaming to
the derived `.jpg` path only when no file already exists there.  The
read+resize outcome is the `engine` oracle; the delayed guard release
(`setTimeout` in the `finally`) happens after this call returns and is not
part of the returned state. -/
def processFile (processing : List String) (vault : Vault) (file : TFile)
    (s : ImageResizerSettings) (engine : EngineResult) : FileOpResult :=
  if processing.contains file.path then ⟨processing, vault, []⟩
  else if !(isImageFile file.name) then ⟨processing, vault, []⟩
  else if !s.resizeOnPaste && !s.resizeOnDrop then ⟨processing, vault, []⟩
  else
    let processing2 := file.path :: processing
    let base : List PEvent := [.readFile file.path, .engineCall file.path]
    match engine with
    | .thrown => ⟨processing2, vault, base⟩
    | .ok none => ⟨processing2, vault, base⟩
    | .ok (some r) =>
      match r.newExtension with
      | some e =>
        let newName := replaceExtLast file.name e
        let np := replaceFirstStr file.path file.name newName
        let vault2 := vaultModify vault file.path r.data
        match vaultLookup vault2 np with
        | some _ => ⟨processing2, vault2, base ++ [.writeBack file.path]⟩
        | none =>
          ⟨np :: processing2, vaultRename vault2 file.path np,
            base ++ [.writeBack file.path, .renamed file.path np]⟩
      | none =>
        ⟨processing2, vaultModify vault file.path r.data, base ++ [.writeBack file.path]⟩

/-- Per-file accumulator of `batchResize` (`src/main.ts` lines 379-422). -/
structure BatchAcc where
  resizedCount : ℕ
  skippedCount : ℕ
  errorCount : ℕ
  processing : List String
  vault : Vault

/-- The body of the `for` loop of `batchResize` for one file: a thrown
read/resize error increments `errorCount` and moves on; a `null` engine
result increments `skippedCount`; a successful resize guard-marks the
path, writes back (renaming to the derived path only when nothing already
exists there) and increments `resizedCount`. -/
def batchStep (acc : BatchAcc) (file : TFile) (engine : EngineResult) : BatchAcc :=
  match engine with
  | .thrown => { acc with errorCount := acc.errorCount + 1 }
  | .ok none => { acc with skippedCount := acc.skippedCount + 1 }
  | .ok (some r) =>
    let processing2 := file.path :: acc.processing
    match r.newExtension with
    | some e =>
      let np := replaceExtLast file.path e
      let vault2 := vaultModify acc.vault file.path r.data
      match vaultLookup vault2 np with
      | some _ =>
        { acc with processing := processing2, vault := vault2,
                   resizedCount := acc.resizedCount + 1 }
      | none =>
        { acc with processing := np :: processing2,
                   vault := vaultRename vault2 file.path np,
                   resizedCount := acc.resizedCount + 1 }
    | none =>
      { acc with processing := processing2,
                 vault := vaultModify acc.vault file.path r.data,
                 resizedCount := acc.resizedCount + 1 }

def batchLoop (engine : TFile → EngineResult) (acc : BatchAcc) : List TFile → BatchAcc
  | [] => acc
  | f :: rest => batchLoop engine (batchStep acc f (engine f)) rest

/-- The notices `batchResize` can show. -/
inductive BNotice
  | scanningB (n : ℕ)
  | noImages
  | aggregate (resizedCount skippedCount errorCount : ℕ)
deriving DecidableEq

/-- Result of a whole batch run: the counters, final guard set and vault,
and the notices shown, in order. -/
structure BatchRunResult where
  resizedCount : ℕ
  skippedCount : ℕ
  errorCount : ℕ
  processing : List String
  vault : Vault
  notices : List BNotice

/-- `src/main.ts` `batchResize` (lines 371-429): empty file set reports
"no images" and returns; otherwise a scanning notice, the serial per-file
loop, and ONE aggregate notice after the full set completes. -/
def batchResize (files : List TFile) (engine : TFile → EngineResult)
    (processing : List String) (vault : Vault) : BatchRunResult :=
  if files.isEmpty then
    ⟨0, 0, 0, processing, vault, [.noImages]⟩
  else
    let acc := batchLoop engine ⟨0, 0, 0, processing, vault⟩ files
    ⟨acc.resizedCount, acc.skippedCount, acc.errorCount, acc.processing, acc.vault,
      [.scanningB files.length, .aggregate acc.resizedCount acc.skippedCount acc.errorCount]⟩

def isOkSome : EngineResult → Bool
  | .ok (some _) => true
  | _ => false

def isOkNone : EngineResult → Bool
  | .ok none => true
  | _ => false

def isThrown : EngineResult → Bool
  | .thrown => true
  | _ => false

theorem vaultLookup_modify_ne (v : Vault) (p q : String) (d : ℕ) (h : ¬(q = p)) :
    vaultLookup (vaultModify v p d) q = vaultLookup v q := by
  induction v with
  | nil => rfl
  | cons a v ih =>
    by_cases hap : a.1 = p
    · have hstep : vaultModify (a :: v) p d = (a.1, d) :: vaultModify v p d := by
        simp only [vaultModify, List.map_cons]
        rw [if_pos (by simp [hap] : (a.1 == p) = true)]
      have haq : ¬((a.1 == q) = true) := by
        simp only [beq_iff_eq, hap]
        exact fun hx => h hx.symm
      rw [hstep]
      simp only [vaultLookup]
      rw [if_neg haq, if_neg haq]
      exact ih
    · have hstep : vaultModify (a :: v) p d = a :: vaultModify v p d := by
        simp only [vaultModify, List.map_cons]
        rw [if_neg (by simp [hap] : ¬((a.1 == p) = true))]
      rw [hstep]
      simp only [vaultLookup]
      by_cases haq : (a.1 == q) = true
      · rw [if_pos haq, if_pos haq]
      · rw [if_neg haq, if_neg haq]
        exact ih

theorem vaultLookup_modify_self (v : Vault) (p : String) (d : ℕ) (b0 : ℕ)
    (h : vaultLookup v p = some b0) : vaultLookup (vaultModify v p d) p = some d := by
  induction v with
  | nil => cases h
  | cons a v ih =>
    by_cases hap : a.1 = p
    · have hstep : vaultModify (a :: v) p d = (a.1, d) :: vaultModify v p d := by
        simp only [vaultModify, List.map_cons]
        rw [if_pos (by simp [hap] : (a.1 == p) = true)]
      rw [hstep]
      simp only [vaultLookup]
      rw [if_pos (by simp [hap] : (a.1 == p) = true)]
    · have hstep : vaultModify (a :: v) p d = a :: vaultModify v p d := by
        simp only [vaultModify, List.map_cons]
        rw [if_neg (by simp [hap] : ¬((a.1 == p) = true))]
      have h' : vaultLookup v p = some b0 := by
        simp only [vaultLookup] at h
        rwa [if_neg (by simp [hap] : ¬((a.1 == p) = true))] at h
      rw [hstep]
      simp only [vaultLookup]
      rw [if_neg (by simp [hap] : ¬((a.1 == p) = true))]
      exact ih h'

/-- Claim C2: a path in the processing guard set is never scheduled and
never processed — `scheduleResize` refuses to arm a timer (the state is
returned untouched), and `processFile` returns before reading or invoking
the resize engine (no events, no state or vault change). -/
theorem guarded_path_never_scheduled_or_processed (st : PluginState) (f : TFile)
    (vault : Vault) (s : ImageResizerSettings) (engine : EngineResult)
    (hg : f.path ∈ st.processing) :
    scheduleResize st f = st ∧
    processFile st.processing vault f s engine = ⟨st.processing, vault, []⟩ := by
  have hgc : st.processing.contains f.path = true := by simpa using hg
  constructor
  · unfold scheduleResize
    split_ifs <;> rfl
  · unfold processFile
    rw [if_pos hgc]

/-- Witness for `guarded_path_never_scheduled_or_processed` at a concrete
guarded path. -/
theorem guarded_path_never_scheduled_or_processed_witness :
    scheduleResize
      { processing := ["a/b.png"], pending := [], ready := true,
        created := [], cancelled := [], firedIds := [], nextId := 0 }
      ⟨"a/b.png", "b.png"⟩ =
      { processing := ["a/b.png"], pending := [], ready := true,
        created := [], cancelled := [], firedIds := [], nextId := 0 } ∧
    processFile ["a/b.png"] [("a/b.png", 1)] ⟨"a/b.png", "b.png"⟩ DEFAULT_SETTINGS
      (EngineResult.ok none) = ⟨["a/b.png"], [("a/b.png", 1)], []⟩ :=
  guarded_path_never_scheduled_or_processed
    { processing := ["a/b.png"], pending := [], ready := true,
      created := [], cancelled := [], firedIds := [], nextId := 0 }
    ⟨"a/b.png", "b.png"⟩ [("a/b.png", 1)] DEFAULT_SETTINGS (EngineResult.ok none)
    (by decide)

/-- Claim C10: in both the event-driven single-file path and the batch
path, when a PNG→JPEG conversion's derived rename target path already
holds a file, the rename is skipped entirely: the converted bytes are
written back under the ORIGINAL path and the existing file at the target
path is left unchanged.  (The two paths derive the target differently:
`processFile` rewrites the extension of the NAME and substitutes it into
the path, `batchResize` rewrites the extension of the PATH directly.) -/
theorem png_convert_existing_target_skips_rename
    (processing : List String) (vault : Vault) (f : TFile) (s : ImageResizerSettings)
    (r : ResizeResult) (e : String) (b b0 : ℕ) (acc : BatchAcc)
    (hext : r.newExtension = some e) :
    (∀ np, np = replaceFirstStr f.path f.name (replaceExtLast f.name e) →
      f.path ∉ processing → isImageFile f.name = true →
      (s.resizeOnPaste || s.resizeOnDrop) = true →
      ¬(np = f.path) → vaultLookup vault np = some b →
      vaultLookup vault f.path = some b0 →
      vaultLookup (processFile processing vault f s (.ok (some r))).vault np = some b ∧
      vaultLookup (processFile processing vault f s (.ok (some r))).vault f.path
        = some r.data ∧
      (∀ x y, PEvent.renamed x y ∉ (processFile processing vault f s (.ok (some r))).events)) ∧
    (∀ np2, np2 = replaceExtLast f.path e →
      ¬(np2 = f.path) → vaultLookup acc.vault np2 = some b →
      vaultLookup acc.vault f.path = some b0 →
      vaultLookup (batchStep acc f (.ok (some r))).vault np2 = some b ∧
      vaultLookup (batchStep acc f (.ok (some r))).vault f.path = some r.data ∧
      (batchStep acc f (.ok (some r))).processing = f.path :: acc.processing) := by
  constructor
  · intro np hnp hnotin hi htog hne hb hb0
    subst hnp
    have hc1 : processing.contains f.path = false := by simpa using hnotin
    have hc3 : (!s.resizeOnPaste && !s.resizeOnDrop) = false := by
      cases hp : s.resizeOnPaste <;> cases hd : s.resizeOnDrop <;> simp_all
    have hv2 : vaultLookup (vaultModify vault f.path r.data)
        (replaceFirstStr f.path f.name (replaceExtLast f.name e)) = some b := by
      rw [vaultLookup_modify_ne vault f.path _ r.data hne]
      exact hb
    have hres : processFile processing vault f s (.ok (some r)) =
        ⟨f.path :: processing, vaultModify vault f.path r.data,
         [.readFile f.path, .engineCall f.path, .writeBack f.path]⟩ := by
      simp [processFile, hc1, hnotin, hi, hc3, hext, hv2]
    rw [hres]
    refine ⟨hv2, vaultLookup_modify_self vault f.path r.data b0 hb0, ?_⟩
    intro x y
    simp
  · intro np2 hnp2 hne hb hb0
    subst hnp2
    have hv2 : vaultLookup (vaultModify acc.vault f.path r.data)
        (replaceExtLast f.path e) = some b := by
      rw [vaultLookup_modify_ne acc.vault f.path _ r.data hne]
      exact hb
    have hres : batchStep acc f (.ok (some r)) =
        { acc with processing := f.path :: acc.processing,
                   vault := vaultModify acc.vault f.path r.data,
                   resizedCount := acc.resizedCount + 1 } := by
      simp [batchStep, hext, hv2]
    rw [hres]
    exact ⟨hv2, vaultLookup_modify_self acc.vault f.path r.data b0 hb0, rfl⟩

/-- Witness for `png_convert_existing_target_skips_rename`: converting
`n/a.png` (target `n/a.jpg` already present with content 2) writes the
converted bytes (content 9) under `n/a.png` and leaves `n/a.jpg` at
content 2, in both the single-file and the batch step. -/
theorem png_convert_existing_target_skips_rename_witness :
    vaultLookup (processFile [] [("n/a.png", 1), ("n/a.jpg", 2)] ⟨"n/a.png", "a.png"⟩
      { DEFAULT_SETTINGS with convertToJpeg := true }
      (.ok (some ⟨9, 100, 50, 200, 100, some "jpg"⟩))).vault "n/a.jpg" = some 2 ∧
    vaultLookup (processFile [] [("n/a.png", 1), ("n/a.jpg", 2)] ⟨"n/a.png", "a.png"⟩
      { DEFAULT_SETTINGS with convertToJpeg := true }
      (.ok (some ⟨9, 100, 50, 200, 100, some "jpg"⟩))).vault "n/a.png" = some 9 ∧
    vaultLookup (batchStep ⟨0, 0, 0, [], [("n/a.png", 1), ("n/a.jpg", 2)]⟩
      ⟨"n/a.png", "a.png"⟩ (.ok (some ⟨9, 100, 50, 200, 100, some "jpg"⟩))).vault
      "n/a.jpg" = some 2 := by
  have H := png_convert_existing_target_skips_rename [] [("n/a.png", 1), ("n/a.jpg", 2)]
    ⟨"n/a.png", "a.png"⟩ { DEFAULT_SETTINGS with convertToJpeg := true }
    ⟨9, 100, 50, 200, 100, some "jpg"⟩ "jpg" 2 1
    ⟨0, 0, 0, [], [("n/a.png", 1), ("n/a.jpg", 2)]⟩ rfl
  have H1 := H.1 "n/a.jpg" (by decide) (by simp) (by decide) (by decide) (by decide)
    (by decide) (by decide)
  have H2 := H.2 "n/a.jpg" (by decide) (by decide) (by decide) (by decide)
  exact ⟨H1.1, H1.2.1, H2.1⟩

theorem batchStep_counts (acc : BatchAcc) (f : TFile) (er : EngineResult) :
    (batchStep acc f er).resizedCount = acc.resizedCount + (if isOkSome er then 1 else 0) ∧
    (batchStep acc f er).skippedCount = acc.skippedCount + (if isOkNone er then 1 else 0) ∧
    (batchStep acc f er).errorCount = acc.errorCount + (if isThrown er then 1 else 0) := by
  rcases er with r | _
  · rcases r with - | r
    · simp [batchStep, isOkSome, isOkNone, isThrown]
    · rcases hx : r.newExtension with - | e
      · simp [batchStep, hx, isOkSome, isOkNone, isThrown]
      · rcases hv : vaultLookup (vaultModify acc.vault f.path r.data)
            (replaceExtLast f.path e) with - | b
        · simp [batchStep, hx, hv, isOkSome, isOkNone, isThrown]
        · simp [batchStep, hx, hv, isOkSome, isOkNone, isThrown]
  · simp [batchStep, isOkSome, isOkNone, isThrown]

theorem batchLoop_counts (engine : TFile → EngineResult) (files : List TFile) (acc : BatchAcc) :
    (batchLoop engine acc files).resizedCount =
      acc.resizedCount + (files.filter (fun f => isOkSome (engine f))).length ∧
    (batchLoop engine acc files).skippedCount =
      acc.skippedCount + (files.filter (fun f => isOkNone (engine f))).length ∧
    (batchLoop engine acc files).errorCount =
      acc.errorCount + (files.filter (fun f => isThrown (engine f))).length := by
  induction files generalizing acc with
  | nil => simp [batchLoop]
  | cons f rest ih =>
    obtain ⟨s1, s2, s3⟩ := batchStep_counts acc f (engine f)
    obtain ⟨c1, c2, c3⟩ := ih (batchStep acc f (engine f))
    have hloop : batchLoop engine acc (f :: rest) =
        batchLoop engine (batchStep acc f (engine f)) rest := rfl
    refine ⟨?_, ?_, ?_⟩
    · rw [hloop, c1, s1]
      by_cases hb : isOkSome (engine f) = true <;>
        simp [List.filter_cons, hb] <;> omega
    · rw [hloop, c2, s2]
      by_cases hb : isOkNone (engine f) = true <;>
        simp [List.filter_cons, hb] <;> omega
    · rw [hloop, c3, s3]
      by_cases hb : isThrown (engine f) = true <;>
        simp [List.filter_cons, hb] <;> omega

theorem engine_outcome_partition (engine : TFile → EngineResult) (files : List TFile) :
    (files.filter (fun f => isOkSome (engine f))).length +
    (files.filter (fun f => isOkNone (engine f))).length +
    (files.filter (fun f => isThrown (engine f))).length = files.length := by
  induction files with
  | nil => rfl
  | cons f rest ih =>
    rcases he : engine f with r | _
    · rcases r with - | r
      · have e1 : isOkSome (engine f) = false := by simp [he, isOkSome]
        have e2 : isOkNone (engine f) = true := by simp [he, isOkNone]
        have e3 : isThrown (engine f) = false := by simp [he, isThrown]
        simp [List.filter_cons, e1, e2, e3]
        omega
      · have e1 : isOkSome (engine f) = true := by simp [he, isOkSome]
        have e2 : isOkNone (engine f) = false := by simp [he, isOkNone]
        have e3 : isThrown (engine f) = false := by simp [he, isThrown]
        simp [List.filter_cons, e1, e2, e3]
        omega
    · have e1 : isOkSome (engine f) = false := by simp [he, isOkSome]
      have e2 : isOkNone (engine f) = false := by simp [he, isOkNone]
      have e3 : isThrown (engine f) = true := by simp [he, isThrown]
      simp [List.filter_cons, e1, e2, e3]
      omega

/-- Claim C7 (amended): for every NON-EMPTY batch, each file contributes
to exactly one counter (`null` engine result → skipped, thrown error →
error and the loop continues, success → resized), so
`resized + skipped + error = N` and no per-file failure escapes the batch;
exactly one aggregate notice is reported, after the whole set completes.
For the EMPTY list the coordinator instead returns early with a
"no images found" notice and reports no aggregate. -/
theorem batch_counts_and_single_aggregate (files : List TFile)
    (engine : TFile → EngineResult) (processing : List String) (vault : Vault)
    (hne : files ≠ []) :
    (batchResize files engine processing vault).resizedCount =
      (files.filter (fun f => isOkSome (engine f))).length ∧
    (batchResize files engine processing vault).skippedCount =
      (files.filter (fun f => isOkNone (engine f))).length ∧
    (batchResize files engine processing vault).errorCount =
      (files.filter (fun f => isThrown (engine f))).length ∧
    (batchResize files engine processing vault).resizedCount +
      (batchResize files engine processing vault).skippedCount +
      (batchResize files engine processing vault).errorCount = files.length ∧
    (batchResize files engine processing vault).notices =
      [.scanningB files.length,
       .aggregate (batchResize files engine processing vault).resizedCount
         (batchResize files engine processing vault).skippedCount
         (batchResize files engine processing vault).errorCount] := by
  have hE : files.isEmpty = false := by
    cases files with
    | nil => exact absurd rfl hne
    | cons a l => rfl
  obtain ⟨c1, c2, c3⟩ := batchLoop_counts engine files ⟨0, 0, 0, processing, vault⟩
  have hres : batchResize files engine processing vault =
      ⟨(batchLoop engine ⟨0, 0, 0, processing, vault⟩ files).resizedCount,
       (batchLoop engine ⟨0, 0, 0, processing, vault⟩ files).skippedCount,
       (batchLoop engine ⟨0, 0, 0, processing, vault⟩ files).errorCount,
       (batchLoop engine ⟨0, 0, 0, processing, vault⟩ files).processing,
       (batchLoop engine ⟨0, 0, 0, processing, vault⟩ files).vault,
       [.scanningB files.length,
        .aggregate (batchLoop engine ⟨0, 0, 0, processing, vault⟩ files).resizedCount
          (batchLoop engine ⟨0, 0, 0, processing, vault⟩ files).skippedCount
          (batchLoop engine ⟨0, 0, 0, processing, vault⟩ files).errorCount]⟩ := by
    simp [batchResize, hE]
  rw [hres]
  refine ⟨?_, ?_, ?_, ?_, ?_⟩
  · simp [c1]
  · simp [c2]
  · simp [c3]
  · simp only [c1, c2, c3, Nat.zero_add]
    exact engine_outcome_partition engine files
  · simp [c1, c2, c3]

/-- Claim C7 counterexample: for the EMPTY file list the batch coordinator
returns early with only a "no images found" notice — zero aggregate
results are reported, not "exactly one". -/
theorem batch_empty_no_aggregate_cex :
    (batchResize [] (fun _ => EngineResult.ok none) [] []).notices = [BNotice.noImages] ∧
    ((batchResize [] (fun _ => EngineResult.ok none) [] []).notices.countP
      (fun nt => match nt with | BNotice.aggregate _ _ _ => true | _ => false)) = 0 := by
  exact ⟨rfl, rfl⟩

/-- Witness for `batch_counts_and_single_aggregate`: a 3-file batch with
one success, one already-within-limits file and one corrupt file reports
1 + 1 + 1 = 3. -/
theorem batch_counts_and_single_aggregate_witness :
    (batchResize [⟨"a.png", "a.png"⟩, ⟨"b.png", "b.png"⟩, ⟨"c.png", "c.png"⟩]
        (fun f => if f.path == "a.png" then .ok (some ⟨5, 10, 10, 20, 20, none⟩)
                  else if f.path == "b.png" then .ok none else .thrown)
        [] [("a.png", 1)]).resizedCount +
      (batchResize [⟨"a.png", "a.png"⟩, ⟨"b.png", "b.png"⟩, ⟨"c.png", "c.png"⟩]
        (fun f => if f.path == "a.png" then .ok (some ⟨5, 10, 10, 20, 20, none⟩)
                  else if f.path == "b.png" then .ok none else .thrown)
        [] [("a.png", 1)]).skippedCount +
      (batchResize [⟨"a.png", "a.png"⟩, ⟨"b.png", "b.png"⟩, ⟨"c.png", "c.png"⟩]
        (fun f => if f.path == "a.png" then .ok (some ⟨5, 10, 10, 20, 20, none⟩)
                  else if f.path == "b.png" then .ok none else .thrown)
        [] [("a.png", 1)]).errorCount = 3 :=
  (batch_counts_and_single_aggregate
    [⟨"a.png", "a.png"⟩, ⟨"b.png", "b.png"⟩, ⟨"c.png", "c.png"⟩]
    (fun f => if f.path == "a.png" then .ok (some ⟨5, 10, 10, 20, 20, none⟩)
              else if f.path == "b.png" then .ok none else .thrown)
    [] [("a.png", 1)] (by simp)).2.2.2.1
